import Mathlib

/-!
Verification of the MCTS engine in
`CMPM146Assignment6Framework/ggpa/mcts_bot.py` (classes `TreeNode` and
`MCTSAgent`).

Encoding conventions, used consistently below:

* The environment state (`BattleState`) is modelled as a well-founded game
  tree `GameState A`: `ended()` is the `ended` flag, `get_actions()` the
  `actions` list, `state.step(a)` moves to the subtree `next a` (the Python
  code advances the state destructively; here the advanced state is the
  returned subtree), and `state.score()` is the stored rational `score`.
  Python floats are modelled as rationals `ℚ`.
* `math.sqrt` and `math.log` are external library functions; they are
  modelled as an abstract pair of functions `MathFns` passed to the code
  that uses them.  No property of them is assumed.
* Python's global random generator is modelled as an explicit supply of
  naturals (`List ℕ`): `random.choice(seq)` consumes one natural `k` and
  returns `seq[k % len(seq)]`; on an empty sequence it raises, which is
  modelled as `none`.  An exhausted supply yields `0`s, which keeps the
  choice total on non-empty sequences, exactly like Python's generator.
* `TreeNode` mutation is modelled by state passing: an operation that
  mutates a node returns the updated node.  Python's
  `backpropagate` climbs the `parent` chain from the node it is called on
  up to the root; in the functional tree the same set of nodes is exactly
  the path from the root down to that node, so the recursive `select`
  returns the playout's reward together with the updated subtree and each
  caller on the path records the reward into its own statistics — the
  one reward per iteration reaches exactly the nodes Python's
  `backpropagate` reaches.  The standalone `backpropagate` below takes the
  root and the path (list of child indices) to the node it is called on.
-/

/-- The pair of real functions `math.sqrt` and `math.log` used by
`TreeNode.select`; kept abstract since they are library imports. -/
structure MathFns where
  sqrt : ℚ → ℚ
  log : ℚ → ℚ

/-- Python float values arising as UCB scores: `-math.inf`, finite, or
`math.inf`. -/
inductive UCB where
  | ninf : UCB
  | val : ℚ → UCB
  | pinf : UCB
deriving DecidableEq, Repr

/-- Python comparison: `x.lt y` is Python's `x < y` on these float values (`inf < inf` and
`-inf < -inf` are false). -/
def UCB.lt : UCB → UCB → Bool
  | _, UCB.ninf => false
  | UCB.ninf, _ => true
  | UCB.pinf, _ => false
  | UCB.val _, UCB.pinf => true
  | UCB.val a, UCB.val b => decide (a < b)

/-- One draw from the random supply; an exhausted supply yields `0`. -/
def randNext : List ℕ → ℕ × List ℕ
  | [] => (0, [])
  | k :: ks => (k, ks)

/-- Python `random.choice(l)`: raises (`none`) on an empty sequence, otherwise
returns the element indexed by the next draw modulo the length. -/
def randChoice {α : Type} (l : List α) (rng : List ℕ) : Option (α × List ℕ) :=
  if h : l.length = 0 then none
  else
    let p := randNext rng
    some (l.get ⟨p.1 % l.length, Nat.mod_lt _ (Nat.pos_of_ne_zero h)⟩, p.2)

/-- The environment state contract (§6 of the spec) as a well-founded tree:
a state is either ended (`halt`, carrying its reported action list and
score) or live (`node`, carrying the legal actions, the transition to the
next state for each action, and the score the state would currently
report). -/
inductive GameState (A : Type) : Type where
  | halt : List A → ℚ → GameState A
  | node : List A → (A → GameState A) → ℚ → GameState A

namespace GameState

variable {A : Type}

/-- Python `state.ended()`. -/
def ended : GameState A → Bool
  | halt _ _ => true
  | node _ _ _ => false

/-- Python `state.get_actions()`. -/
def get_actions : GameState A → List A
  | halt as _ => as
  | node as _ _ => as

/-- Python `state.step(a)`: the state after applying action `a` (the engine
never steps an ended state; there the model returns the state itself). -/
def step : GameState A → A → GameState A
  | halt as sc, _ => halt as sc
  | node _ nx _, a => nx a

/-- Python `state.score()`. -/
def score : GameState A → ℚ
  | halt _ sc => sc
  | node _ _ sc => sc

end GameState

/-- Source `TreeNode.__init__`: `children`, `results`, `visits`, `param`
(the `parent` back-reference is represented by the node's position in the
tree rather than stored, see the module comment). -/
inductive TreeNode (A : Type) : Type where
  | mk : List (A × TreeNode A) → List ℚ → ℕ → ℚ → TreeNode A

namespace TreeNode

variable {A : Type}

/-- The `children` field. -/
def children : TreeNode A → List (A × TreeNode A)
  | mk c _ _ _ => c

/-- The `results` field. -/
def results : TreeNode A → List ℚ
  | mk _ r _ _ => r

/-- The `visits` field. -/
def visits : TreeNode A → ℕ
  | mk _ _ v _ => v

/-- The `param` field. -/
def param : TreeNode A → ℚ
  | mk _ _ _ p => p

/-- Source `TreeNode(param)`: a freshly constructed node. -/
def init (p : ℚ) : TreeNode A := mk [] [] 0 p

/-- The local step of `backpropagate` (lines 135-136):
`self.results.append(result); self.visits += 1`. -/
def record (t : TreeNode A) (r : ℚ) : TreeNode A :=
  mk t.children (t.results ++ [r]) (t.visits + 1) t.param

/-- Source `TreeNode.score` (lines 143-144): delegates to `state.score()`. -/
def scoreOf (s : GameState A) : ℚ := s.score

/-- Source `TreeNode.rollout` (lines 124-128): play uniformly at random until the
state ends, then return its score.  (The Python method ignores `self`.) -/
def rollout : GameState A → List ℕ → Option (ℚ × List ℕ)
  | GameState.halt as sc, rng => some (scoreOf (GameState.halt as sc), rng)
  | GameState.node as nx _, rng =>
    match randChoice as rng with
    | none => none
    | some (a, rng1) => rollout (nx a) rng1

/-- Source line 110: the list `tried` of actions that already have a child. -/
def triedOf (t : TreeNode A) : List A := t.children.map Prod.fst

/-- Source line 111: the currently-available actions with no child yet. -/
def unexploredOf [DecidableEq A] (t : TreeNode A) (available : List A) : List A :=
  available.filter (fun a => decide (a ∉ triedOf t))

/-- Source `TreeNode.expand` (lines 109-120): pick an unexplored action at
random, append a fresh child for it, apply the action, roll out, and
backpropagate the reward (the new child and this node record the reward
here; the ancestors record it from the returned reward, see the module
comment). -/
def expand [DecidableEq A] (t : TreeNode A) (s : GameState A) (available : List A)
    (rng : List ℕ) : Option (TreeNode A × ℚ × List ℕ) :=
  match randChoice (unexploredOf t available) rng with
  | none => none
  | some (action, rng1) =>
    match rollout (s.step action) rng1 with
    | none => none
    | some (reward, rng2) =>
      some (mk (t.children ++ [(action, record (init t.param) reward)])
          (t.results ++ [reward]) (t.visits + 1) t.param,
        reward, rng2)

/-- Source line 69: `total_visits = sum(node.visits for (_, node) in
self.children)` — the sum runs over all children. -/
def totalVisits (t : TreeNode A) : ℕ := (t.children.map (fun q => q.2.visits)).sum

/-- Source line 70: `log_total = math.log(total_visits) if total_visits > 0
else 0.0`. -/
def logTotalOf (m : MathFns) (t : TreeNode A) : ℚ :=
  if 0 < totalVisits t then m.log (totalVisits t) else 0

/-- Source lines 79-85: the UCB-1 score of one child node. -/
def ucbScore (m : MathFns) (p logTotal : ℚ) (n : TreeNode A) : UCB :=
  if n.visits = 0 then UCB.pinf
  else UCB.val (n.results.sum / (n.visits : ℚ) + p * m.sqrt (logTotal / (n.visits : ℚ)))

/-- Source lines 72-89: the best-candidate loop of `select`.  Children whose
action is not legal are skipped; a candidate replaces the running best
exactly when its score is strictly greater.  The running best also carries
its index so the functional update can replace the chosen child. -/
def bestLoop [DecidableEq A] (m : MathFns) (p logTotal : ℚ) (actions : List A) :
    List (A × TreeNode A) → ℕ → UCB → Option (ℕ × A × TreeNode A) →
      Option (ℕ × A × TreeNode A)
  | [], _, _, best => best
  | (a, n) :: rest, i, bestScore, best =>
    if a ∈ actions then
      let sc := ucbScore m p logTotal n
      if bestScore.lt sc then bestLoop m p logTotal actions rest (i + 1) sc (some (i, a, n))
      else bestLoop m p logTotal actions rest (i + 1) bestScore best
    else bestLoop m p logTotal actions rest (i + 1) bestScore best

/-- The UCB-1 choice made by `select` (lines 69-89): the loop started with
`best_score = -math.inf` and no best action. -/
def chooseBest [DecidableEq A] (m : MathFns) (t : TreeNode A) (actions : List A) :
    Option (ℕ × A × TreeNode A) :=
  bestLoop m t.param (logTotalOf m t) actions t.children 0 UCB.ninf none

/-- Source lines 95-98: the linear scan for an existing child whose action
equals the fallback action (returns its index and node). -/
def findAction [DecidableEq A] : List (A × TreeNode A) → A → ℕ → Option (ℕ × TreeNode A)
  | [], _, _ => none
  | (a, n) :: rest, ba, i => if a = ba then some (i, n) else findAction rest ba (i + 1)

/-- Source `TreeNode.select` (lines 58-104).  Terminal states score and
backpropagate; a node missing children delegates to `expand`; otherwise the
UCB-1 pick recurses, and if no candidate was legal the fallback picks a
random legal action, reusing the matching child or appending a fresh one.
The returned triple is the updated subtree, the backpropagated reward and
the remaining random supply. -/
def select [DecidableEq A] (m : MathFns) :
    TreeNode A → GameState A → List ℕ → Option (TreeNode A × ℚ × List ℕ)
  | t, GameState.halt as sc, rng =>
    some (t.record (scoreOf (GameState.halt as sc)),
      scoreOf (GameState.halt as sc), rng)
  | t, GameState.node as nx sc, rng =>
    if t.children.length < as.length then
      expand t (GameState.node as nx sc) as rng
    else
      match chooseBest m t as with
      | some (i, a, n) =>
        match select m n (nx a) rng with
        | none => none
        | some (n2, r, rng1) =>
          some (mk (t.children.set i (a, n2)) (t.results ++ [r]) (t.visits + 1) t.param,
            r, rng1)
      | none =>
        match randChoice as rng with
        | none => none
        | some (ba, rng1) =>
          match findAction t.children ba 0 with
          | some (j, n) =>
            match select m n (nx ba) rng1 with
            | none => none
            | some (n2, r, rng2) =>
              some (mk (t.children.set j (ba, n2)) (t.results ++ [r]) (t.visits + 1)
                t.param, r, rng2)
          | none =>
            match select m (init t.param) (nx ba) rng1 with
            | none => none
            | some (n2, r, rng2) =>
              some (mk (t.children ++ [(ba, n2)]) (t.results ++ [r]) (t.visits + 1)
                t.param, r, rng2)

/-- Source `TreeNode.step` (lines 29-30): one iteration is one `select`. -/
def step [DecidableEq A] (m : MathFns) (t : TreeNode A) (s : GameState A)
    (rng : List ℕ) : Option (TreeNode A × ℚ × List ℕ) :=
  select m t s rng

/-- Source line 40: the key used by `get_best` — average result, or
`-math.inf` for an unvisited child. -/
def gbValue (n : TreeNode A) : UCB :=
  if 0 < n.visits then UCB.val (n.results.sum / (n.visits : ℚ)) else UCB.ninf

/-- Python `max(children, key=...)`: scan keeping the current best, replaced
exactly when a later element's key is strictly greater (so the first
maximal element wins ties). -/
def maxLoop : List (A × TreeNode A) → A × TreeNode A → A × TreeNode A
  | [], best => best
  | q :: rest, best => maxLoop rest (if (gbValue best.2).lt (gbValue q.2) then q else best)

/-- Source `TreeNode.get_best` (lines 35-42): random legal action if there
are no children, else the action of the child maximising the average
result. -/
def get_best (t : TreeNode A) (s : GameState A) (rng : List ℕ) : Option (A × List ℕ) :=
  match t.children with
  | [] => randChoice s.get_actions rng
  | c :: cs => some ((maxLoop cs c).1, rng)

mutual

/-- Source `TreeNode.print_tree` (lines 46-51), as the pure list of printed
records (indent, action, visits, average — 0 for an unvisited child); a
read-only traversal that takes no state and returns no tree. -/
def print_tree : TreeNode A → ℕ → List (ℕ × A × ℕ × ℚ)
  | mk cs _ _ _, indent => printLines cs indent

/-- The loop body of `print_tree` over the children list. -/
def printLines : List (A × TreeNode A) → ℕ → List (ℕ × A × ℕ × ℚ)
  | [], _ => []
  | (a, n) :: rest, indent =>
    (indent, a, n.visits, if 0 < n.visits then n.results.sum / (n.visits : ℚ) else 0)
      :: (print_tree n (indent + 2) ++ printLines rest indent)

end

/-- Look up the node at a path of child indices (the functional stand-in for
following object references; `[]` is the node itself). -/
def getNode : TreeNode A → List ℕ → Option (TreeNode A)
  | t, [] => some t
  | t, i :: p =>
    match t.children.get? i with
    | none => none
    | some q => getNode q.2 p

/-- Source `TreeNode.backpropagate` (lines 134-138), called on the node at
path `p` of the given root: append the result and bump the visit count
there and at every node on the parent chain up to the root — which is
exactly every node along the path.  (On an out-of-range index, which a
valid path never produces, only the current node records.) -/
def backpropagate (r : ℚ) : TreeNode A → List ℕ → TreeNode A
  | t, [] => t.record r
  | t, i :: p =>
    match t.children.get? i with
    | none => t.record r
    | some q =>
      mk (t.children.set i (q.1, backpropagate r q.2 p)) (t.results ++ [r])
        (t.visits + 1) t.param

mutual

/-- Decidable form of the spec invariant `visitCount == len(outcomes)`,
required at every node of the tree. -/
def invB : TreeNode A → Bool
  | mk cs rs v _ => decide (v = rs.length) && invChildren cs

/-- The `invB` check over a children list. -/
def invChildren : List (A × TreeNode A) → Bool
  | [] => true
  | q :: rest => invB q.2 && invChildren rest

end

mutual

/-- Decidable form of the spec invariant that no two children of any node
share an action. -/
def nodupB [DecidableEq A] : TreeNode A → Bool
  | mk cs _ _ _ => decide ((cs.map Prod.fst).Nodup) && nodupChildren cs

/-- The `nodupB` check over a children list. -/
def nodupChildren [DecidableEq A] : List (A × TreeNode A) → Bool
  | [] => true
  | q :: rest => nodupB q.2 && nodupChildren rest

end

/-- Spec-side reading of the UCB-1 rule: sum of visit counts over the
candidate children only, i.e. over children whose action is in the current
legal set. -/
def candidateVisits [DecidableEq A] (t : TreeNode A) (actions : List A) : ℕ :=
  ((t.children.filter (fun q => decide (q.1 ∈ actions))).map (fun q => q.2.visits)).sum

/-- The visit counts the spec's candidate sum leaves out: those of children
whose action is no longer legal. -/
def staleVisits [DecidableEq A] (t : TreeNode A) (actions : List A) : ℕ :=
  ((t.children.filter (fun q => decide (q.1 ∉ actions))).map (fun q => q.2.visits)).sum

/-- Modelled from the spec: the same selection loop but with the logarithm
base `N` summed over candidate children only, as the spec words it.  Kept
separate so the source's choice (`chooseBest`, whose `N` sums over all
children) can be compared against it. -/
def chooseBestSpecN [DecidableEq A] (m : MathFns) (t : TreeNode A) (actions : List A) :
    Option (ℕ × A × TreeNode A) :=
  bestLoop m t.param
    (if 0 < candidateVisits t actions then m.log (candidateVisits t actions) else 0)
    actions t.children 0 UCB.ninf none

/-- Spec-side: position `i` holds the first maximum of a list of scores
under Python's float comparison — no score is strictly greater than it,
and every score before it is strictly smaller. -/
def firstMaxAt (scores : List UCB) (i : ℕ) : Prop :=
  ∃ si, scores.get? i = some si ∧
    (∀ j sj, scores.get? j = some sj → si.lt sj = false) ∧
    (∀ j sj, j < i → scores.get? j = some sj → sj.lt si = true)

/-- The per-child UCB scores as `select` computes them on node `t` with the
current legal set `actions` (the score of a non-candidate child is listed
too but never inspected by the loop; with every child legal all entries
matter). -/
def scoresOf (m : MathFns) (t : TreeNode A) : List UCB :=
  t.children.map (fun q => ucbScore m t.param (logTotalOf m t) q.2)

end TreeNode

namespace MCTSAgent

variable {A E : Type}

/-- The iteration loop of `choose_card` (lines 163-165): each iteration
draws an undeterministic copy of the battle state (`copy_undeterministic`
is the abstract `copyU`) and runs `t.step` on it. -/
def runIters [DecidableEq A] (m : MathFns)
    (copyU : GameState A → List ℕ → GameState A × List ℕ) (bs : GameState A) :
    ℕ → TreeNode A → List ℕ → Option (TreeNode A × List ℕ)
  | 0, t, rng => some (t, rng)
  | n + 1, t, rng =>
    let q := copyU bs rng
    match TreeNode.step m t q.1 q.2 with
    | none => none
    | some (t2, _, rng2) => runIters m copyU bs n t2 rng2

/-- Source `MCTSAgent.choose_card` (lines 155-174): with exactly one legal
action return it converted at once; otherwise build a fresh root, run the
configured number of iterations, and convert `get_best`'s answer.
`to_action` is the abstract `toAction`.  (The source's `if best_action is
None` check cannot fire: `get_best` either raises — `none` here — or
returns an action.) -/
def choose_card [DecidableEq A] (m : MathFns) (iterations : ℕ) (p : ℚ)
    (copyU : GameState A → List ℕ → GameState A × List ℕ)
    (toAction : A → GameState A → E) (bs : GameState A) (rng : List ℕ) :
    Option (E × List ℕ) :=
  let actions := bs.get_actions
  if h : actions.length = 1 then
    some (toAction (actions.get ⟨0, by omega⟩) bs, rng)
  else
    match runIters m copyU bs iterations (TreeNode.init p) rng with
    | none => none
    | some (t, rng1) =>
      match t.get_best bs rng1 with
      | none => none
      | some (ba, rng2) => some (toAction ba bs, rng2)

end MCTSAgent

/-! Concrete instances used by witnesses and counterexamples.  `mathId` is
one fixed instantiation of the abstract `math.sqrt` / `math.log` pair; no
general theorem depends on either choice. -/

/-- A concrete instantiation of the math functions for witnesses. -/
def mathId : MathFns := MathFns.mk id id

/-- A child node visited once with result 5. -/
def exA1 : TreeNode ℕ := TreeNode.mk [] [5] 1 1

/-- A child node visited once with result 3. -/
def exB1 : TreeNode ℕ := TreeNode.mk [] [3] 1 1

/-- A node with children for actions 0 and 1. -/
def exT1 : TreeNode ℕ := TreeNode.mk [(0, exA1), (1, exB1)] [5, 3] 2 1

/-- A live state whose legal actions are `[2, 0]` — action 1 became stale
and action 2 has no child yet under `exT1`. -/
def exS1 : GameState ℕ := GameState.node [2, 0] (fun _ => GameState.halt [] 7) 9

/-- A candidate child with 4 visits and average 10. -/
def exB2 : TreeNode ℕ := TreeNode.mk [] [10, 10, 10, 10] 4 1

/-- A candidate child with 1 visit and average 0. -/
def exA2 : TreeNode ℕ := TreeNode.mk [] [0] 1 1

/-- A stale child with 50 visits whose action is no longer legal. -/
def exStale2 : TreeNode ℕ := TreeNode.mk [] (List.replicate 50 0) 50 1

/-- A node whose children are two candidates (actions 0, 1) and one stale
child (action 2): the stale child's 50 visits inflate line 69's sum. -/
def exT2 : TreeNode ℕ :=
  TreeNode.mk [(0, exB2), (1, exA2), (2, exStale2)] (List.replicate 55 1) 55 1

/-- A live state with legal actions `[0, 1]` for `exT2`. -/
def exS2 : GameState ℕ := GameState.node [0, 1] (fun _ => GameState.halt [] 0) 0

/-- An unvisited child. -/
def exU5 : TreeNode ℕ := TreeNode.mk [] [] 0 1

/-- A node with a visited child (action 4) then an unvisited one (action 6). -/
def exT5 : TreeNode ℕ := TreeNode.mk [(4, exB1), (6, exU5)] [3] 1 1

/-- A live state whose legal actions are exactly the child actions of
`exT5`. -/
def exS5 : GameState ℕ := GameState.node [6, 4] (fun _ => GameState.halt [] 2) 0

/-- A node with an unvisited child (action 0) and a visited one (action 1). -/
def exT6 : TreeNode ℕ := TreeNode.mk [(0, exU5), (1, exB1)] [3] 1 1

/-- A node whose single child's action 5 is stale for `exS8`. -/
def exT8 : TreeNode ℕ := TreeNode.mk [(5, exB1)] [3] 1 1

/-- A live state whose only legal action 7 matches no child of `exT8`. -/
def exS8 : GameState ℕ := GameState.node [7] (fun _ => GameState.halt [] 1) 0

/-- A live state with exactly one legal action. -/
def exS9 : GameState ℕ := GameState.node [3] (fun _ => GameState.halt [] 1) 0

/-! Basic facts about the embedded operations. -/

namespace UCB

theorem lt_irrefl (x : UCB) : x.lt x = false := by
  cases x with
  | ninf => rfl
  | val a => simp [UCB.lt]
  | pinf => rfl

theorem lt_asymm {x y : UCB} (h : x.lt y = true) : y.lt x = false := by
  cases x <;> cases y <;> simp_all [UCB.lt] <;> linarith

theorem lt_of_not_lt_of_lt {x y z : UCB} (h1 : y.lt x = false) (h2 : y.lt z = true) :
    x.lt z = true := by
  cases x <;> cases y <;> cases z <;> simp_all [UCB.lt] <;> linarith

theorem lt_trans {x y z : UCB} (h1 : x.lt y = true) (h2 : y.lt z = true) :
    x.lt z = true := by
  cases x <;> cases y <;> cases z <;> simp_all [UCB.lt] <;> linarith

theorem not_lt_of_not_lt_of_not_lt {x y z : UCB} (h1 : x.lt y = false)
    (h2 : y.lt z = false) : x.lt z = false := by
  cases x <;> cases y <;> cases z <;> simp_all [UCB.lt] <;> linarith

theorem ninf_lt {x : UCB} (h : x ≠ ninf) : ninf.lt x = true := by
  cases x with
  | ninf => exact absurd rfl h
  | val a => rfl
  | pinf => rfl

theorem lt_pinf {x : UCB} (h : x ≠ pinf) : x.lt pinf = true := by
  cases x with
  | ninf => rfl
  | val a => rfl
  | pinf => exact absurd rfl h

end UCB

theorem randChoice_isSome {α : Type} (l : List α) (rng : List ℕ) (h : l ≠ []) :
    (randChoice l rng).isSome = true := by
  unfold randChoice
  rw [dif_neg (by simpa using h)]
  rfl

theorem randChoice_mem {α : Type} {l : List α} {rng rng2 : List ℕ} {a : α}
    (h : randChoice l rng = some (a, rng2)) : a ∈ l := by
  unfold randChoice at h
  by_cases h0 : l.length = 0
  · rw [dif_pos h0] at h; exact absurd h (by simp)
  · rw [dif_neg h0] at h
    have := (Option.some.injEq _ _).mp h
    have ha : l.get ⟨(randNext rng).1 % l.length, _⟩ = a := congrArg Prod.fst this
    exact ha ▸ l.get_mem _ _

theorem randChoice_eq {α : Type} (l : List α) (rng : List ℕ) (h : l ≠ []) :
    randChoice l rng =
      some (l.get ⟨(randNext rng).1 % l.length,
        Nat.mod_lt _ (List.length_pos.mpr h)⟩, (randNext rng).2) := by
  unfold randChoice
  rw [dif_neg (by simpa using h)]

theorem randChoice_of_mem {α : Type} {l : List α} {a : α} (h : a ∈ l) :
    ∃ k, randChoice l [k] = some (a, []) := by
  obtain ⟨⟨k, hk⟩, rfl⟩ := List.mem_iff_get.mp h
  refine ⟨k, ?_⟩
  rw [randChoice_eq l [k] (List.ne_nil_of_length_pos (Nat.lt_of_le_of_lt (Nat.zero_le k) hk))]
  simp [randNext, Nat.mod_eq_of_lt hk]

theorem map_fst_set {α β : Type} {l : List (α × β)} {i : ℕ} {a : α} {b b' : β}
    (h : l.get? i = some (a, b)) : (l.set i (a, b')).map Prod.fst = l.map Prod.fst := by
  induction l generalizing i with
  | nil => simp at h
  | cons x xs ih =>
    cases i with
    | zero =>
      simp only [List.get?] at h
      cases h
      simp [List.set]
    | succ j =>
      simp only [List.get?] at h
      simp [List.set, ih h]

namespace TreeNode

variable {A : Type}

theorem children_mk (cs : List (A × TreeNode A)) (rs : List ℚ) (v : ℕ) (p : ℚ) :
    (mk cs rs v p).children = cs := rfl

theorem record_children (t : TreeNode A) (r : ℚ) : (t.record r).children = t.children := rfl

theorem record_results (t : TreeNode A) (r : ℚ) : (t.record r).results = t.results ++ [r] := rfl

theorem record_visits (t : TreeNode A) (r : ℚ) : (t.record r).visits = t.visits + 1 := rfl

theorem record_param (t : TreeNode A) (r : ℚ) : (t.record r).param = t.param := rfl

theorem mk_eta (t : TreeNode A) : mk t.children t.results t.visits t.param = t := by
  cases t
  rfl

/-- The score `select`'s loop would assign is never `-math.inf`. -/
theorem ninf_lt_ucbScore (m : MathFns) (p logTotal : ℚ) (n : TreeNode A) :
    UCB.ninf.lt (ucbScore m p logTotal n) = true := by
  unfold ucbScore
  split <;> rfl

theorem findAction_none [DecidableEq A] {ba : A} :
    ∀ {cs : List (A × TreeNode A)} {i0 : ℕ},
      findAction cs ba i0 = none → ba ∉ cs.map Prod.fst := by
  intro cs
  induction cs with
  | nil => intro i0 _; simp
  | cons x xs ih =>
    intro i0 h
    obtain ⟨a, n⟩ := x
    by_cases hx : a = ba
    · rw [findAction, if_pos hx] at h
      exact absurd h (by simp)
    · rw [findAction, if_neg hx] at h
      simpa [Ne.symm hx] using ih h

theorem findAction_some [DecidableEq A] {ba : A} {j : ℕ} {n : TreeNode A} :
    ∀ {cs : List (A × TreeNode A)} {i0 : ℕ},
      findAction cs ba i0 = some (j, n) → i0 ≤ j ∧ cs.get? (j - i0) = some (ba, n) := by
  intro cs
  induction cs with
  | nil => intro i0 h; simp [findAction] at h
  | cons x xs ih =>
    intro i0 h
    obtain ⟨a, n0⟩ := x
    by_cases hx : a = ba
    · rw [findAction, if_pos hx] at h
      obtain ⟨h1, h2⟩ := Prod.mk.injEq .. ▸ (Option.some.injEq _ _).mp h
      subst hx
      constructor
      · omega
      · rw [h1, Nat.sub_self]
        simpa using h2
    · rw [findAction, if_neg hx] at h
      obtain ⟨hle, hget⟩ := ih h
      refine ⟨by omega, ?_⟩
      have : j - i0 = (j - (i0 + 1)) + 1 := by omega
      rw [this]
      simpa using hget

theorem invB_eq (t : TreeNode A) :
    invB t = (decide (t.visits = t.results.length) && invChildren t.children) := by
  cases t
  rfl

theorem invChildren_iff {cs : List (A × TreeNode A)} :
    invChildren cs = true ↔ ∀ q ∈ cs, invB q.2 = true := by
  induction cs with
  | nil => simp [invChildren]
  | cons x xs ih =>
    rw [invChildren]
    simp only [Bool.and_eq_true, ih, List.mem_cons]
    constructor
    · rintro ⟨h1, h2⟩ q (rfl | hq)
      · exact h1
      · exact h2 q hq
    · intro h
      exact ⟨h x (Or.inl rfl), fun q hq => h q (Or.inr hq)⟩

theorem nodupB_eq [DecidableEq A] (t : TreeNode A) :
    nodupB t = (decide ((t.children.map Prod.fst).Nodup) && nodupChildren t.children) := by
  cases t
  rfl

theorem nodupChildren_iff [DecidableEq A] {cs : List (A × TreeNode A)} :
    nodupChildren cs = true ↔ ∀ q ∈ cs, nodupB q.2 = true := by
  induction cs with
  | nil => simp [nodupChildren]
  | cons x xs ih =>
    rw [nodupChildren]
    simp only [Bool.and_eq_true, ih, List.mem_cons]
    constructor
    · rintro ⟨h1, h2⟩ q (rfl | hq)
      · exact h1
      · exact h2 q hq
    · intro h
      exact ⟨h x (Or.inl rfl), fun q hq => h q (Or.inr hq)⟩

theorem invB_record {t : TreeNode A} (ht : invB t = true) (r : ℚ) :
    invB (t.record r) = true := by
  rw [invB_eq] at ht ⊢
  simp only [Bool.and_eq_true, decide_eq_true_eq] at ht ⊢
  rw [record_visits, record_results, record_children]
  exact ⟨by simp [ht.1], ht.2⟩

theorem nodupB_record [DecidableEq A] {t : TreeNode A} (ht : nodupB t = true) (r : ℚ) :
    nodupB (t.record r) = true := by
  rw [nodupB_eq] at ht ⊢
  simpa [record] using ht

theorem invB_init (p : ℚ) : invB (init (A := A) p) = true := rfl

theorem nodupB_init [DecidableEq A] (p : ℚ) : nodupB (init (A := A) p) = true := by
  simp [init, nodupB, nodupChildren]

/-- Membership in a `List.set` result: each element is the inserted one or an
original. -/
theorem mem_of_mem_set {α : Type} {l : List α} {i : ℕ} {x y : α}
    (h : y ∈ l.set i x) : y = x ∨ y ∈ l := by
  induction l generalizing i with
  | nil => simp [List.set] at h
  | cons z zs ih =>
    cases i with
    | zero =>
      rcases List.mem_cons.mp h with h1 | h1
      · exact Or.inl h1
      · exact Or.inr (List.mem_cons_of_mem _ h1)
    | succ j =>
      rcases List.mem_cons.mp h with h1 | h1
      · exact Or.inr (h1 ▸ List.mem_cons_self _ _)
      · rcases ih h1 with h2 | h2
        · exact Or.inl h2
        · exact Or.inr (List.mem_cons_of_mem _ h2)

/-- A `bestLoop` answer not inherited from the accumulator names an actual
child at its index. -/
theorem bestLoop_result [DecidableEq A] {m : MathFns} {p lt0 : ℚ} {actions : List A} :
    ∀ {cs : List (A × TreeNode A)} {i0 : ℕ} {bs : UCB}
      {acc : Option (ℕ × A × TreeNode A)} {j : ℕ} {a : A} {n : TreeNode A},
      bestLoop m p lt0 actions cs i0 bs acc = some (j, a, n) →
      acc = some (j, a, n) ∨ ∃ k, cs.get? k = some (a, n) ∧ j = i0 + k := by
  intro cs
  induction cs with
  | nil => intro i0 bs acc j a n h; exact Or.inl h
  | cons x xs ih =>
    intro i0 bs acc j a n h
    obtain ⟨ax, nx⟩ := x
    rw [bestLoop] at h
    by_cases hmem : ax ∈ actions
    · rw [if_pos hmem] at h
      by_cases hlt : bs.lt (ucbScore m p lt0 nx) = true
      · simp only [hlt, if_true] at h
        rcases ih h with h1 | h1
        · simp only [Option.some.injEq, Prod.mk.injEq] at h1
          obtain ⟨rfl, rfl, rfl⟩ := h1
          exact Or.inr ⟨0, by simp⟩
        · obtain ⟨k, hk, rfl⟩ := h1
          exact Or.inr ⟨k + 1, by simpa using hk, by omega⟩
      · simp only [hlt, if_false] at h
        rcases ih h with h1 | h1
        · exact Or.inl h1
        · obtain ⟨k, hk, rfl⟩ := h1
          exact Or.inr ⟨k + 1, by simpa using hk, by omega⟩
    · rw [if_neg hmem] at h
      rcases ih h with h1 | h1
      · exact Or.inl h1
      · obtain ⟨k, hk, rfl⟩ := h1
        exact Or.inr ⟨k + 1, by simpa using hk, by omega⟩

/-- The choice `select` recurses into is an actual child at its index. -/
theorem chooseBest_get [DecidableEq A] {m : MathFns} {t : TreeNode A} {actions : List A}
    {i : ℕ} {a : A} {n : TreeNode A} (h : chooseBest m t actions = some (i, a, n)) :
    t.children.get? i = some (a, n) := by
  rcases bestLoop_result h with h1 | h1
  · exact absurd h1 (by simp)
  · obtain ⟨k, hk, rfl⟩ := h1
    simpa using hk

/-! Unfolding equations for the branches of `select`. -/

theorem select_halt [DecidableEq A] (m : MathFns) (t : TreeNode A) (as : List A)
    (sc : ℚ) (rng : List ℕ) :
    select m t (GameState.halt as sc) rng = some (t.record sc, sc, rng) := rfl

theorem select_node_expand [DecidableEq A] (m : MathFns) (t : TreeNode A) (as : List A)
    (nx : A → GameState A) (sc : ℚ) (rng : List ℕ)
    (hlen : t.children.length < as.length) :
    select m t (GameState.node as nx sc) rng =
      expand t (GameState.node as nx sc) as rng := by
  rw [select]
  simp only [hlen, if_true]

theorem select_node_chosen [DecidableEq A] (m : MathFns) (t : TreeNode A) (as : List A)
    (nx : A → GameState A) (sc : ℚ) (rng : List ℕ) (i : ℕ) (a : A) (n : TreeNode A)
    (hlen : ¬ t.children.length < as.length) (hcb : chooseBest m t as = some (i, a, n)) :
    select m t (GameState.node as nx sc) rng =
      match select m n (nx a) rng with
      | none => none
      | some (n2, r, rng1) =>
        some (mk (t.children.set i (a, n2)) (t.results ++ [r]) (t.visits + 1) t.param,
          r, rng1) := by
  rw [select]
  simp only [hlen, if_false, hcb]

theorem select_node_fallback [DecidableEq A] (m : MathFns) (t : TreeNode A) (as : List A)
    (nx : A → GameState A) (sc : ℚ) (rng : List ℕ)
    (hlen : ¬ t.children.length < as.length) (hcb : chooseBest m t as = none) :
    select m t (GameState.node as nx sc) rng =
      match randChoice as rng with
      | none => none
      | some (ba, rng1) =>
        match findAction t.children ba 0 with
        | some (j, n) =>
          match select m n (nx ba) rng1 with
          | none => none
          | some (n2, r, rng2) =>
            some (mk (t.children.set j (ba, n2)) (t.results ++ [r]) (t.visits + 1)
              t.param, r, rng2)
        | none =>
          match select m (init t.param) (nx ba) rng1 with
          | none => none
          | some (n2, r, rng2) =>
            some (mk (t.children ++ [(ba, n2)]) (t.results ++ [r]) (t.visits + 1)
              t.param, r, rng2) := by
  rw [select]
  simp only [hlen, if_false, hcb]

/-- With every element of the remaining children a candidate, `select`'s
loop computes the first maximum: the result either names the element at a
first-maximal score position beating the running best, or nothing beats the
running best and the accumulator is returned. -/
theorem bestLoop_all_legal [DecidableEq A] (m : MathFns) (p lt0 : ℚ) (actions : List A) :
    ∀ (cs : List (A × TreeNode A)) (i0 : ℕ) (bs : UCB)
      (acc : Option (ℕ × A × TreeNode A)),
      (∀ q ∈ cs, q.1 ∈ actions) →
      (∃ k c, cs.get? k = some c ∧
          firstMaxAt (cs.map (fun q => ucbScore m p lt0 q.2)) k ∧
          bs.lt (ucbScore m p lt0 c.2) = true ∧
          bestLoop m p lt0 actions cs i0 bs acc = some (i0 + k, c.1, c.2)) ∨
      ((∀ k c, cs.get? k = some c → bs.lt (ucbScore m p lt0 c.2) = false) ∧
        bestLoop m p lt0 actions cs i0 bs acc = acc) := by
  intro cs
  induction cs with
  | nil =>
    intro i0 bs acc _
    exact Or.inr ⟨fun k c hk => by simp at hk, rfl⟩
  | cons x xs ih =>
    intro i0 bs acc hall
    obtain ⟨a, n⟩ := x
    have hmem : a ∈ actions := hall (a, n) (List.mem_cons_self _ _)
    have hall' : ∀ q ∈ xs, q.1 ∈ actions := fun q hq => hall q (List.mem_cons_of_mem _ hq)
    rw [bestLoop, if_pos hmem]
    by_cases hb : bs.lt (ucbScore m p lt0 n) = true
    · rw [if_pos hb]
      rcases ih (i0 + 1) (ucbScore m p lt0 n) (some (i0, a, n)) hall' with h1 | h1
      · obtain ⟨k, c, hk, ⟨si, hsi, hmax, hbefore⟩, hbeat, hres⟩ := h1
        have hsi' : si = ucbScore m p lt0 c.2 := by
          rw [List.get?_map, hk] at hsi
          simpa using hsi.symm
        subst hsi'
        refine Or.inl ⟨k + 1, c, by simpa using hk, ?_, UCB.lt_trans hb hbeat, ?_⟩
        · refine ⟨ucbScore m p lt0 c.2, ?_, ?_, ?_⟩
          · rw [List.get?_map]
            simpa using congrArg (Option.map (fun q => ucbScore m p lt0 q.2)) hk
          · intro j sj hj
            cases j with
            | zero =>
              simp only [List.map_cons, List.get?] at hj
              cases hj
              exact UCB.lt_asymm hbeat
            | succ j' =>
              exact hmax j' sj (by simpa using hj)
          · intro j sj hjk hj
            cases j with
            | zero =>
              simp only [List.map_cons, List.get?] at hj
              cases hj
              exact hbeat
            | succ j' =>
              exact hbefore j' sj (by omega) (by simpa using hj)
        · have harith : i0 + 1 + k = i0 + (k + 1) := by omega
          rw [hres, harith]
      · obtain ⟨hnone, hres⟩ := h1
        refine Or.inl ⟨0, (a, n), rfl, ?_, hb, by simpa using hres⟩
        refine ⟨ucbScore m p lt0 n, rfl, ?_, ?_⟩
        · intro j sj hj
          cases j with
          | zero =>
            simp only [List.map_cons, List.get?] at hj
            cases hj
            exact UCB.lt_irrefl _
          | succ j' =>
            rw [List.map_cons] at hj
            simp only [List.get?, List.get?_map] at hj
            cases hsj : xs.get? j' with
            | none => rw [hsj] at hj; simp at hj
            | some c' =>
              rw [hsj] at hj
              simp only [Option.map_some', Option.some.injEq] at hj
              cases hj
              exact hnone j' c' hsj
        · intro j sj hjk _
          omega
    · rw [if_neg hb]
      rcases ih (i0 + 1) bs acc hall' with h1 | h1
      · obtain ⟨k, c, hk, ⟨si, hsi, hmax, hbefore⟩, hbeat, hres⟩ := h1
        have hsi' : si = ucbScore m p lt0 c.2 := by
          rw [List.get?_map, hk] at hsi
          simpa using hsi.symm
        subst hsi'
        have hs0 : (ucbScore m p lt0 n).lt (ucbScore m p lt0 c.2) = true :=
          UCB.lt_of_not_lt_of_lt (by simpa using hb) hbeat
        refine Or.inl ⟨k + 1, c, by simpa using hk, ?_, hbeat, ?_⟩
        · refine ⟨ucbScore m p lt0 c.2, ?_, ?_, ?_⟩
          · rw [List.get?_map]
            simpa using congrArg (Option.map (fun q => ucbScore m p lt0 q.2)) hk
          · intro j sj hj
            cases j with
            | zero =>
              simp only [List.map_cons, List.get?] at hj
              cases hj
              exact UCB.lt_asymm hs0
            | succ j' =>
              exact hmax j' sj (by simpa using hj)
          · intro j sj hjk hj
            cases j with
            | zero =>
              simp only [List.map_cons, List.get?] at hj
              cases hj
              exact hs0
            | succ j' =>
              exact hbefore j' sj (by omega) (by simpa using hj)
        · have harith : i0 + 1 + k = i0 + (k + 1) := by omega
          rw [hres, harith]
      · obtain ⟨hnone, hres⟩ := h1
        refine Or.inr ⟨?_, hres⟩
        intro k c hk
        cases k with
        | zero =>
          simp only [List.get?] at hk
          cases hk
          simpa using hb
        | succ k' =>
          exact hnone k' c (by simpa using hk)

/-- With no remaining child a candidate, `select`'s loop skips everything
and returns the accumulator. -/
theorem bestLoop_skip_all [DecidableEq A] (m : MathFns) (p lt0 : ℚ) (actions : List A) :
    ∀ (cs : List (A × TreeNode A)) (i0 : ℕ) (bs : UCB)
      (acc : Option (ℕ × A × TreeNode A)),
      (∀ q ∈ cs, q.1 ∉ actions) →
      bestLoop m p lt0 actions cs i0 bs acc = acc := by
  intro cs
  induction cs with
  | nil => intro i0 bs acc _; rfl
  | cons x xs ih =>
    intro i0 bs acc hall
    obtain ⟨a, n⟩ := x
    rw [bestLoop, if_neg (hall (a, n) (List.mem_cons_self _ _))]
    exact ih (i0 + 1) bs acc fun q hq => hall q (List.mem_cons_of_mem _ hq)

/-- Python's `max` scan returns an element of its input whose key no other
element strictly exceeds. -/
theorem maxLoop_spec :
    ∀ (cs : List (A × TreeNode A)) (best : A × TreeNode A),
      (maxLoop cs best = best ∨ maxLoop cs best ∈ cs) ∧
      (∀ q, (q = best ∨ q ∈ cs) →
        (gbValue (maxLoop cs best).2).lt (gbValue q.2) = false) := by
  intro cs
  induction cs with
  | nil =>
    intro best
    refine ⟨Or.inl rfl, ?_⟩
    rintro q (rfl | hq)
    · exact UCB.lt_irrefl _
    · simp at hq
  | cons x xs ih =>
    intro best
    rw [maxLoop]
    by_cases hlt : (gbValue best.2).lt (gbValue x.2) = true
    · rw [if_pos hlt]
      refine ⟨?_, ?_⟩
      · rcases (ih x).1 with h1 | h1
        · rw [h1]
          exact Or.inr (List.mem_cons_self _ _)
        · exact Or.inr (List.mem_cons_of_mem _ h1)
      · rintro q (rfl | hq)
        · exact UCB.not_lt_of_not_lt_of_not_lt
            ((ih x).2 x (Or.inl rfl)) (UCB.lt_asymm hlt)
        · rcases List.mem_cons.mp hq with h1 | h1
          · exact h1 ▸ (ih x).2 x (Or.inl rfl)
          · exact (ih x).2 q (Or.inr h1)
    · rw [if_neg hlt]
      refine ⟨?_, ?_⟩
      · rcases (ih best).1 with h1 | h1
        · exact Or.inl h1
        · exact Or.inr (List.mem_cons_of_mem _ h1)
      · rintro q (rfl | hq)
        · exact (ih q).2 q (Or.inl rfl)
        · rcases List.mem_cons.mp hq with h1 | h1
          · exact h1 ▸ UCB.not_lt_of_not_lt_of_not_lt
              ((ih best).2 best (Or.inl rfl)) (by simpa using hlt)
          · exact (ih best).2 q (Or.inr h1)

theorem getNode_cons (t : TreeNode A) (i : ℕ) (p : List ℕ) :
    t.getNode (i :: p) = match t.children.get? i with
      | none => none
      | some c => c.2.getNode p := rfl

theorem backpropagate_cons (r : ℚ) (t : TreeNode A) (i : ℕ) (p : List ℕ)
    {a : A} {n : TreeNode A} (hget : t.children.get? i = some (a, n)) :
    t.backpropagate r (i :: p) =
      mk (t.children.set i (a, backpropagate r n p)) (t.results ++ [r])
        (t.visits + 1) t.param := by
  rw [backpropagate]
  simp only [hget]

/-- A backpropagation along a path preserves the visit-count invariant. -/
theorem backpropagate_invB :
    ∀ (pth : List ℕ) (t : TreeNode A) (r : ℚ),
      invB t = true → invB (t.backpropagate r pth) = true := by
  intro pth
  induction pth with
  | nil => intro t r ht; exact invB_record ht r
  | cons i p' ih =>
    intro t r ht
    cases hget : t.children.get? i with
    | none =>
      rw [backpropagate]
      simp only [hget]
      exact invB_record ht r
    | some c =>
      obtain ⟨a, n⟩ := c
      rw [backpropagate_cons r t i p' hget]
      rw [invB_eq] at ht
      simp only [Bool.and_eq_true, decide_eq_true_eq] at ht
      rw [invB]
      simp only [Bool.and_eq_true, decide_eq_true_eq]
      refine ⟨by simp [ht.1], invChildren_iff.mpr ?_⟩
      intro q hq
      rcases mem_of_mem_set hq with hq1 | hq1
      · rw [hq1]
        exact ih n r (invChildren_iff.mp ht.2 (a, n) (List.get?_mem hget))
      · exact invChildren_iff.mp ht.2 q hq1

/-- Splitting a list sum over a decidable predicate on the elements. -/
theorem sum_filter_split {α : Type} (pr : α → Bool) (f : α → ℕ) :
    ∀ (l : List α),
      ((l.filter pr).map f).sum + ((l.filter (fun x => !(pr x))).map f).sum
        = (l.map f).sum := by
  intro l
  induction l with
  | nil => rfl
  | cons x xs ih =>
    by_cases hx : pr x = true
    · simp [List.filter_cons, hx]
      omega
    · have hx2 : pr x = false := by simpa using hx
      simp [List.filter_cons, hx2]
      omega

/-- A duplicate-free list included in another is no longer than it. -/
theorem nodup_subset_length {α : Type} [DecidableEq α] {l1 l2 : List α}
    (h : l1.Nodup) (hs : l1 ⊆ l2) : l1.length ≤ l2.length := by
  calc l1.length = l1.toFinset.card := by rw [List.toFinset_card_of_nodup h]
    _ ≤ l2.toFinset.card := Finset.card_le_card (by
        intro x hx
        simp only [List.mem_toFinset] at hx ⊢
        exact hs hx)
    _ ≤ l2.length := l2.toFinset_card_le

/-! Preservation of the visit-count invariant. -/

theorem expand_invB [DecidableEq A] {t : TreeNode A} {s : GameState A} {av : List A}
    {rng : List ℕ} {t2 : TreeNode A} {r : ℚ} {rng2 : List ℕ}
    (ht : invB t = true) (h : expand t s av rng = some (t2, r, rng2)) :
    invB t2 = true := by
  unfold expand at h
  cases hrc : randChoice (unexploredOf t av) rng with
  | none => rw [hrc] at h; exact absurd h (by simp)
  | some q =>
    obtain ⟨action, rng1⟩ := q
    simp only [hrc] at h
    cases hro : rollout (s.step action) rng1 with
    | none => simp only [hro] at h; exact absurd h (by simp)
    | some q2 =>
      obtain ⟨reward, rng3⟩ := q2
      simp only [hro, Option.some.injEq, Prod.mk.injEq] at h
      obtain ⟨rfl, rfl, rfl⟩ := h
      rw [invB_eq] at ht
      simp only [Bool.and_eq_true, decide_eq_true_eq] at ht
      rw [invB]
      simp only [Bool.and_eq_true, decide_eq_true_eq]
      refine ⟨by simp [ht.1], invChildren_iff.mpr ?_⟩
      intro q hq
      rcases List.mem_append.mp hq with hq1 | hq1
      · exact invChildren_iff.mp ht.2 q hq1
      · have : q = (action, record (init t.param) reward) := by simpa using hq1
        rw [this]
        exact invB_record (invB_init _) _

theorem select_invB [DecidableEq A] (m : MathFns) (s : GameState A) :
    ∀ (t : TreeNode A) (rng : List ℕ) (t2 : TreeNode A) (r : ℚ) (rng2 : List ℕ),
      invB t = true → select m t s rng = some (t2, r, rng2) → invB t2 = true := by
  induction s with
  | halt as sc =>
    intro t rng t2 r rng2 ht h
    rw [select_halt] at h
    simp only [Option.some.injEq, Prod.mk.injEq] at h
    obtain ⟨rfl, rfl, rfl⟩ := h
    exact invB_record ht _
  | node as nx sc ih =>
    intro t rng t2 r rng2 ht h
    by_cases hlen : t.children.length < as.length
    · rw [select_node_expand m t as nx sc rng hlen] at h
      exact expand_invB ht h
    · cases hcb : chooseBest m t as with
      | some x =>
        obtain ⟨i, a, n⟩ := x
        rw [select_node_chosen m t as nx sc rng i a n hlen hcb] at h
        cases hsel : select m n (nx a) rng with
        | none => rw [hsel] at h; exact absurd h (by simp)
        | some y =>
          obtain ⟨n2, r1, rng1⟩ := y
          simp only [hsel, Option.some.injEq, Prod.mk.injEq] at h
          obtain ⟨rfl, rfl, rfl⟩ := h
          have hget := chooseBest_get hcb
          rw [invB_eq] at ht
          simp only [Bool.and_eq_true, decide_eq_true_eq] at ht
          have hn : invB n = true :=
            invChildren_iff.mp ht.2 (a, n) (List.get?_mem hget)
          have hn2 := ih a n rng n2 r1 rng1 hn hsel
          rw [invB]
          simp only [Bool.and_eq_true, decide_eq_true_eq]
          refine ⟨by simp [ht.1], invChildren_iff.mpr ?_⟩
          intro q hq
          rcases mem_of_mem_set hq with hq1 | hq1
          · rw [hq1]; exact hn2
          · exact invChildren_iff.mp ht.2 q hq1
      | none =>
        rw [select_node_fallback m t as nx sc rng hlen hcb] at h
        cases hrc : randChoice as rng with
        | none => rw [hrc] at h; exact absurd h (by simp)
        | some q =>
          obtain ⟨ba, rng1⟩ := q
          simp only [hrc] at h
          cases hfa : findAction t.children ba 0 with
          | some q2 =>
            obtain ⟨j, n⟩ := q2
            simp only [hfa] at h
            cases hsel : select m n (nx ba) rng1 with
            | none => simp only [hsel] at h; exact absurd h (by simp)
            | some y =>
              obtain ⟨n2, r1, rng3⟩ := y
              simp only [hsel, Option.some.injEq, Prod.mk.injEq] at h
              obtain ⟨rfl, rfl, rfl⟩ := h
              obtain ⟨-, hget⟩ := findAction_some hfa
              rw [Nat.sub_zero] at hget
              rw [invB_eq] at ht
              simp only [Bool.and_eq_true, decide_eq_true_eq] at ht
              have hn : invB n = true :=
                invChildren_iff.mp ht.2 (ba, n) (List.get?_mem hget)
              have hn2 := ih ba n rng1 n2 r1 rng3 hn hsel
              rw [invB]
              simp only [Bool.and_eq_true, decide_eq_true_eq]
              refine ⟨by simp [ht.1], invChildren_iff.mpr ?_⟩
              intro q hq
              rcases mem_of_mem_set hq with hq1 | hq1
              · rw [hq1]; exact hn2
              · exact invChildren_iff.mp ht.2 q hq1
          | none =>
            simp only [hfa] at h
            cases hsel : select m (init t.param) (nx ba) rng1 with
            | none => simp only [hsel] at h; exact absurd h (by simp)
            | some y =>
              obtain ⟨n2, r1, rng3⟩ := y
              simp only [hsel, Option.some.injEq, Prod.mk.injEq] at h
              obtain ⟨rfl, rfl, rfl⟩ := h
              have hn2 := ih ba (init t.param) rng1 n2 r1 rng3 (invB_init _) hsel
              rw [invB_eq] at ht
              simp only [Bool.and_eq_true, decide_eq_true_eq] at ht
              rw [invB]
              simp only [Bool.and_eq_true, decide_eq_true_eq]
              refine ⟨by simp [ht.1], invChildren_iff.mpr ?_⟩
              intro q hq
              rcases List.mem_append.mp hq with hq1 | hq1
              · exact invChildren_iff.mp ht.2 q hq1
              · have : q = (ba, n2) := by simpa using hq1
                rw [this]
                exact hn2

/-! Preservation of the unique-sibling-action invariant. -/

theorem expand_nodupB [DecidableEq A] {t : TreeNode A} {s : GameState A} {av : List A}
    {rng : List ℕ} {t2 : TreeNode A} {r : ℚ} {rng2 : List ℕ}
    (ht : nodupB t = true) (h : expand t s av rng = some (t2, r, rng2)) :
    nodupB t2 = true := by
  unfold expand at h
  cases hrc : randChoice (unexploredOf t av) rng with
  | none => rw [hrc] at h; exact absurd h (by simp)
  | some q =>
    obtain ⟨action, rng1⟩ := q
    simp only [hrc] at h
    cases hro : rollout (s.step action) rng1 with
    | none => simp only [hro] at h; exact absurd h (by simp)
    | some q2 =>
      obtain ⟨reward, rng3⟩ := q2
      simp only [hro, Option.some.injEq, Prod.mk.injEq] at h
      obtain ⟨rfl, rfl, rfl⟩ := h
      have hmem := randChoice_mem hrc
      have hnotin : action ∉ t.children.map Prod.fst := by
        have h2 : action ∈ av ∧ action ∉ t.triedOf := by simpa [unexploredOf] using hmem
        simpa [triedOf] using h2.2
      rw [nodupB_eq] at ht
      simp only [Bool.and_eq_true, decide_eq_true_eq] at ht
      rw [nodupB]
      simp only [Bool.and_eq_true, decide_eq_true_eq]
      constructor
      · simp only [List.map_append, List.map_cons, List.map_nil]
        simp [List.nodup_append, ht.1, hnotin]
      · rw [nodupChildren_iff]
        intro q hq
        rcases List.mem_append.mp hq with hq1 | hq1
        · exact nodupChildren_iff.mp ht.2 q hq1
        · have : q = (action, record (init t.param) reward) := by simpa using hq1
          rw [this]
          exact nodupB_record (nodupB_init _) _

theorem select_nodupB [DecidableEq A] (m : MathFns) (s : GameState A) :
    ∀ (t : TreeNode A) (rng : List ℕ) (t2 : TreeNode A) (r : ℚ) (rng2 : List ℕ),
      nodupB t = true → select m t s rng = some (t2, r, rng2) → nodupB t2 = true := by
  induction s with
  | halt as sc =>
    intro t rng t2 r rng2 ht h
    rw [select_halt] at h
    simp only [Option.some.injEq, Prod.mk.injEq] at h
    obtain ⟨rfl, rfl, rfl⟩ := h
    exact nodupB_record ht _
  | node as nx sc ih =>
    intro t rng t2 r rng2 ht h
    by_cases hlen : t.children.length < as.length
    · rw [select_node_expand m t as nx sc rng hlen] at h
      exact expand_nodupB ht h
    · cases hcb : chooseBest m t as with
      | some x =>
        obtain ⟨i, a, n⟩ := x
        rw [select_node_chosen m t as nx sc rng i a n hlen hcb] at h
        cases hsel : select m n (nx a) rng with
        | none => rw [hsel] at h; exact absurd h (by simp)
        | some y =>
          obtain ⟨n2, r1, rng1⟩ := y
          simp only [hsel, Option.some.injEq, Prod.mk.injEq] at h
          obtain ⟨rfl, rfl, rfl⟩ := h
          have hget := chooseBest_get hcb
          rw [nodupB_eq] at ht
          simp only [Bool.and_eq_true, decide_eq_true_eq] at ht
          have hn : nodupB n = true :=
            nodupChildren_iff.mp ht.2 (a, n) (List.get?_mem hget)
          have hn2 := ih a n rng n2 r1 rng1 hn hsel
          rw [nodupB]
          simp only [Bool.and_eq_true, decide_eq_true_eq]
          constructor
          · rw [map_fst_set hget]
            exact ht.1
          · rw [nodupChildren_iff]
            intro q hq
            rcases mem_of_mem_set hq with hq1 | hq1
            · rw [hq1]; exact hn2
            · exact nodupChildren_iff.mp ht.2 q hq1
      | none =>
        rw [select_node_fallback m t as nx sc rng hlen hcb] at h
        cases hrc : randChoice as rng with
        | none => rw [hrc] at h; exact absurd h (by simp)
        | some q =>
          obtain ⟨ba, rng1⟩ := q
          simp only [hrc] at h
          cases hfa : findAction t.children ba 0 with
          | some q2 =>
            obtain ⟨j, n⟩ := q2
            simp only [hfa] at h
            cases hsel : select m n (nx ba) rng1 with
            | none => simp only [hsel] at h; exact absurd h (by simp)
            | some y =>
              obtain ⟨n2, r1, rng3⟩ := y
              simp only [hsel, Option.some.injEq, Prod.mk.injEq] at h
              obtain ⟨rfl, rfl, rfl⟩ := h
              obtain ⟨-, hget⟩ := findAction_some hfa
              rw [Nat.sub_zero] at hget
              rw [nodupB_eq] at ht
              simp only [Bool.and_eq_true, decide_eq_true_eq] at ht
              have hn : nodupB n = true :=
                nodupChildren_iff.mp ht.2 (ba, n) (List.get?_mem hget)
              have hn2 := ih ba n rng1 n2 r1 rng3 hn hsel
              rw [nodupB]
              simp only [Bool.and_eq_true, decide_eq_true_eq]
              constructor
              · rw [map_fst_set hget]
                exact ht.1
              · rw [nodupChildren_iff]
                intro q hq
                rcases mem_of_mem_set hq with hq1 | hq1
                · rw [hq1]; exact hn2
                · exact nodupChildren_iff.mp ht.2 q hq1
          | none =>
            simp only [hfa] at h
            cases hsel : select m (init t.param) (nx ba) rng1 with
            | none => simp only [hsel] at h; exact absurd h (by simp)
            | some y =>
              obtain ⟨n2, r1, rng3⟩ := y
              simp only [hsel, Option.some.injEq, Prod.mk.injEq] at h
              obtain ⟨rfl, rfl, rfl⟩ := h
              have hn2 := ih ba (init t.param) rng1 n2 r1 rng3 (nodupB_init _) hsel
              have hnotin : ba ∉ t.children.map Prod.fst := findAction_none hfa
              rw [nodupB_eq] at ht
              simp only [Bool.and_eq_true, decide_eq_true_eq] at ht
              rw [nodupB]
              simp only [Bool.and_eq_true, decide_eq_true_eq]
              constructor
              · simp only [List.map_append, List.map_cons, List.map_nil]
                simp [List.nodup_append, ht.1, hnotin]
              · rw [nodupChildren_iff]
                intro q hq
                rcases List.mem_append.mp hq with hq1 | hq1
                · exact nodupChildren_iff.mp ht.2 q hq1
                · have : q = (ba, n2) := by simpa using hq1
                  rw [this]
                  exact hn2

/-- The iteration loop preserves the visit-count invariant. -/
theorem runIters_invB [DecidableEq A] (m : MathFns)
    (copyU : GameState A → List ℕ → GameState A × List ℕ) (bs : GameState A) :
    ∀ (n : ℕ) (t : TreeNode A) (rng : List ℕ) (t2 : TreeNode A) (rng2 : List ℕ),
      invB t = true → MCTSAgent.runIters m copyU bs n t rng = some (t2, rng2) →
      invB t2 = true := by
  intro n
  induction n with
  | zero =>
    intro t rng t2 rng2 ht h
    rw [MCTSAgent.runIters] at h
    simp only [Option.some.injEq, Prod.mk.injEq] at h
    obtain ⟨rfl, rfl⟩ := h
    exact ht
  | succ n ih =>
    intro t rng t2 rng2 ht h
    rw [MCTSAgent.runIters] at h
    cases hst : TreeNode.step m t (copyU bs rng).1 (copyU bs rng).2 with
    | none => simp only [hst] at h; exact absurd h (by simp)
    | some y =>
      obtain ⟨t1, r1, rng1⟩ := y
      simp only [hst] at h
      exact ih t1 rng1 t2 rng2 (select_invB m (copyU bs rng).1 t (copyU bs rng).2 t1 r1 rng1 ht hst) h

/-- The iteration loop preserves the unique-sibling-action invariant. -/
theorem runIters_nodupB [DecidableEq A] (m : MathFns)
    (copyU : GameState A → List ℕ → GameState A × List ℕ) (bs : GameState A) :
    ∀ (n : ℕ) (t : TreeNode A) (rng : List ℕ) (t2 : TreeNode A) (rng2 : List ℕ),
      nodupB t = true → MCTSAgent.runIters m copyU bs n t rng = some (t2, rng2) →
      nodupB t2 = true := by
  intro n
  induction n with
  | zero =>
    intro t rng t2 rng2 ht h
    rw [MCTSAgent.runIters] at h
    simp only [Option.some.injEq, Prod.mk.injEq] at h
    obtain ⟨rfl, rfl⟩ := h
    exact ht
  | succ n ih =>
    intro t rng t2 rng2 ht h
    rw [MCTSAgent.runIters] at h
    cases hst : TreeNode.step m t (copyU bs rng).1 (copyU bs rng).2 with
    | none => simp only [hst] at h; exact absurd h (by simp)
    | some y =>
      obtain ⟨t1, r1, rng1⟩ := y
      simp only [hst] at h
      exact ih t1 rng1 t2 rng2
        (select_nodupB m (copyU bs rng).1 t (copyU bs rng).2 t1 r1 rng1 ht hst) h

end TreeNode

/-! The claims, in order, each as one theorem (with its witness or
counterexample where applicable). -/

open TreeNode

/-- C9: `choose_card` on a state with exactly one legal action immediately
returns that action converted via `to_action`: the result is the same for
every iteration budget, exploration parameter and sampler, and the random
supply comes back untouched — no root is constructed and no search
iteration runs. -/
theorem choose_card_single_action {A E : Type} [DecidableEq A] (m : MathFns)
    (iterations : ℕ) (p : ℚ) (copyU : GameState A → List ℕ → GameState A × List ℕ)
    (toAction : A → GameState A → E) (bs : GameState A) (rng : List ℕ)
    (h1 : bs.get_actions.length = 1) :
    MCTSAgent.choose_card m iterations p copyU toAction bs rng =
      some (toAction (bs.get_actions.get ⟨0, by omega⟩) bs, rng) := by
  unfold MCTSAgent.choose_card
  rw [dif_pos h1]

/-- C9 witness: a concrete single-action state, 5 iterations requested. -/
theorem choose_card_single_action_witness :
    MCTSAgent.choose_card mathId 5 1 (fun s rng => (s, rng)) (fun a _ => a) exS9 [2, 3]
      = some (3, [2, 3]) := by
  have h := choose_card_single_action mathId 5 1 (fun s rng => (s, rng))
    (fun a _ => a) exS9 [2, 3] (by decide)
  simpa [exS9, GameState.get_actions] using h

/-- C10: when expansion is triggered (strictly fewer children than legal
actions) and sibling actions and the available list are duplicate-free, the
`unexplored` list computed in `expand` (line 111) is non-empty, so the
`random.choice` of line 112 cannot fail on an empty sequence. -/
theorem expand_unexplored_nonempty {A : Type} [DecidableEq A] (t : TreeNode A)
    (available : List A) (rng : List ℕ)
    (hlen : t.children.length < available.length)
    (hsib : (t.children.map Prod.fst).Nodup) (hav : available.Nodup) :
    unexploredOf t available ≠ [] ∧
      (randChoice (unexploredOf t available) rng).isSome = true := by
  have hne : unexploredOf t available ≠ [] := by
    intro hempty
    have hsub : available ⊆ t.children.map Prod.fst := by
      intro a ha
      by_contra hnot
      have hmem : a ∈ unexploredOf t available := by
        rw [unexploredOf]
        exact List.mem_filter.mpr ⟨ha, by simpa [triedOf] using hnot⟩
      rw [hempty] at hmem
      simp at hmem
    have hle := nodup_subset_length hav hsub
    rw [List.length_map] at hle
    omega
  exact ⟨hne, randChoice_isSome _ _ hne⟩

/-- C10 witness: one child for action 5, available actions `[5, 7]`. -/
theorem expand_unexplored_nonempty_witness :
    unexploredOf exT8 [5, 7] ≠ [] ∧
      (randChoice (unexploredOf exT8 [5, 7]) [0]).isSome = true :=
  expand_unexplored_nonempty exT8 [5, 7] [0] (by decide) (by decide) (by decide)

/-- C4: backpropagating a result `r` from the node at path `p` updates
exactly the nodes on the path — the node itself and each ancestor up to the
root get their visit count incremented by 1, `r` appended to their results,
and keep their `param` and their children's actions; every node not on the
path is left entirely unchanged (same visits, results, children and
param — in the positional encoding the whole subtree is equal). -/
theorem backpropagate_ancestors_frame {A : Type} (r : ℚ) (p : List ℕ)
    (t : TreeNode A) (q : List ℕ) (hvalid : (t.getNode p).isSome = true) :
    (q <+: p →
      ((t.backpropagate r p).getNode q).map visits
          = (t.getNode q).map (fun n => n.visits + 1) ∧
      ((t.backpropagate r p).getNode q).map results
          = (t.getNode q).map (fun n => n.results ++ [r]) ∧
      ((t.backpropagate r p).getNode q).map param = (t.getNode q).map param ∧
      ((t.backpropagate r p).getNode q).map (fun n => n.children.map Prod.fst)
          = (t.getNode q).map (fun n => n.children.map Prod.fst)) ∧
    (¬ q <+: p → (t.backpropagate r p).getNode q = t.getNode q) := by
  induction p generalizing t q with
  | nil =>
    constructor
    · intro hq
      have hq0 : q = [] := List.prefix_nil.mp hq
      subst hq0
      exact ⟨rfl, rfl, rfl, rfl⟩
    · intro hq
      cases q with
      | nil => exact absurd List.nil_prefix hq
      | cons j q2 =>
        show getNode (t.record r) (j :: q2) = t.getNode (j :: q2)
        rw [getNode_cons, getNode_cons, record_children]
  | cons i p2 ih =>
    rw [getNode_cons] at hvalid
    cases hget : t.children.get? i with
    | none => rw [hget] at hvalid; simp at hvalid
    | some c =>
      obtain ⟨a, n⟩ := c
      simp only [hget] at hvalid
      have hbp := backpropagate_cons r t i p2 hget
      have hlt : i < t.children.length := (List.get?_eq_some.mp hget).1
      constructor
      · intro hq
        cases q with
        | nil =>
          rw [hbp]
          refine ⟨rfl, rfl, rfl, ?_⟩
          show some ((t.children.set i (a, backpropagate r n p2)).map Prod.fst)
              = some (t.children.map Prod.fst)
          rw [map_fst_set hget]
        | cons j q2 =>
          obtain ⟨rfl, hq2⟩ := List.cons_prefix_cons.mp hq
          rw [hbp, getNode_cons]
          simp only [children_mk, List.get?_set_eq_of_lt _ hlt]
          rw [getNode_cons, hget]
          exact ((ih n q2 hvalid).1) hq2
      · intro hq
        cases q with
        | nil => exact absurd List.nil_prefix hq
        | cons j q2 =>
          by_cases hij : j = i
          · subst hij
            have hq2 : ¬ q2 <+: p2 := fun hc => hq (List.cons_prefix_cons.mpr ⟨rfl, hc⟩)
            rw [hbp, getNode_cons]
            simp only [children_mk, List.get?_set_eq_of_lt _ hlt]
            rw [getNode_cons, hget]
            exact ((ih n q2 hvalid).2) hq2
          · rw [hbp, getNode_cons, getNode_cons]
            simp only [children_mk]
            rw [List.get?_set_ne _ _ (fun hc => hij hc.symm)]

/-- C4 witness: backpropagating 4 from the child at path `[0]` of `exT1`,
observed at the leaf itself (`q = [0]`: a prefix of the path). -/
theorem backpropagate_ancestors_frame_witness :
    (([0] : List ℕ) <+: [0] →
      ((exT1.backpropagate 4 [0]).getNode [0]).map TreeNode.visits
          = ((exT1.getNode [0]).map (fun n => n.visits + 1)) ∧
      ((exT1.backpropagate 4 [0]).getNode [0]).map TreeNode.results
          = ((exT1.getNode [0]).map (fun n => n.results ++ [4])) ∧
      ((exT1.backpropagate 4 [0]).getNode [0]).map TreeNode.param
          = ((exT1.getNode [0]).map TreeNode.param) ∧
      ((exT1.backpropagate 4 [0]).getNode [0]).map (fun n => n.children.map Prod.fst)
          = ((exT1.getNode [0]).map (fun n => n.children.map Prod.fst))) ∧
    (¬ ([0] : List ℕ) <+: [0] →
      (exT1.backpropagate 4 [0]).getNode [0] = exT1.getNode [0]) :=
  backpropagate_ancestors_frame 4 [0] exT1 [0] (by decide)

/-- C1 counterexample: under `exT1` (children for actions 0 and 1) with
legal actions `[2, 0]`, action 2 is legal and has no child, yet `select`
does not expand — the children actions are still exactly `[0, 1]`
afterwards — while `expand` on the very same input appends a child (the
children actions become `[0, 1, 2]`).  The stale child for action 1 makes
the length test of line 66 pass without a child for every legal action. -/
theorem select_missing_child_without_expand :
    (2 ∈ exS1.get_actions ∧ 2 ∉ exT1.children.map Prod.fst) ∧
    (TreeNode.select mathId exT1 exS1 [0]).map (fun x => x.1.children.map Prod.fst)
        = some [0, 1] ∧
    (TreeNode.expand exT1 exS1 exS1.get_actions [0]).map
        (fun x => x.1.children.map Prod.fst) = some [0, 1, 2] :=
  ⟨by decide, by decide, by decide⟩

/-- C1 amended: `select` delegates to `expand` exactly when the node has
strictly fewer children than there are currently-legal actions (line 66);
only when every existing child's action is still legal — no stale
children — and sibling actions and the legal list are duplicate-free does
that count test coincide with "some legal action has no child yet". -/
theorem expand_iff_fewer_children {A : Type} [DecidableEq A] (m : MathFns)
    (t : TreeNode A) (as : List A) (nx : A → GameState A) (sc : ℚ) (rng : List ℕ)
    (hsub : ∀ a ∈ t.children.map Prod.fst, a ∈ as)
    (hsib : (t.children.map Prod.fst).Nodup) (has2 : as.Nodup) :
    ((∃ a ∈ as, a ∉ t.children.map Prod.fst) ↔ t.children.length < as.length) ∧
    (t.children.length < as.length →
      select m t (GameState.node as nx sc) rng =
        expand t (GameState.node as nx sc) as rng) := by
  constructor
  · constructor
    · rintro ⟨a, ha, hnot⟩
      by_contra hge
      have hlen1 : (t.children.map Prod.fst).length ≤ as.length :=
        nodup_subset_length hsib hsub
      have hlen2 : as.length ≤ (t.children.map Prod.fst).length := by
        rw [List.length_map] at hlen1 ⊢
        omega
      have hcard : (t.children.map Prod.fst).toFinset = as.toFinset := by
        apply Finset.eq_of_subset_of_card_le
        · intro x hx
          simp only [List.mem_toFinset] at hx ⊢
          exact hsub x hx
        · rw [List.toFinset_card_of_nodup has2, List.toFinset_card_of_nodup hsib]
          exact hlen2
      have : a ∈ (t.children.map Prod.fst).toFinset := by
        rw [hcard]
        simpa using ha
      exact hnot (by simpa using this)
    · intro hlt
      by_contra hno
      push_neg at hno
      have hsub2 : as ⊆ t.children.map Prod.fst := fun a ha => hno a ha
      have := nodup_subset_length has2 hsub2
      rw [List.length_map] at this
      omega
  · intro hlt
    exact select_node_expand m t as nx sc rng hlt

/-- C1 amended witness: one child (action 5), legal actions `[5, 7]`:
action 7 is missing a child and expansion is triggered. -/
theorem expand_iff_fewer_children_witness :
    ((∃ a ∈ [5, 7], a ∉ exT8.children.map Prod.fst) ↔
      exT8.children.length < [5, 7].length) ∧
    (exT8.children.length < [5, 7].length →
      select mathId exT8 (GameState.node [5, 7] (fun _ => GameState.halt [] 1) 0) [0] =
        expand exT8 (GameState.node [5, 7] (fun _ => GameState.halt [] 1) 0) [5, 7] [0]) :=
  expand_iff_fewer_children mathId exT8 [5, 7] (fun _ => GameState.halt [] 1) 0 [0]
    (by decide) (by decide) (by decide)

/-- C2 counterexample: in `exT2` the UCB branch is live (three children,
two legal actions, so no expansion), the `N` of line 69 is 55 — the sum
over all children including the stale 50-visit child — while the
candidates-only sum is 5; with `sqrt` and `log` instantiated as the
identity the chooser picks child index 1, whereas the same loop run with
the spec's candidates-only `N` picks index 0.  `select` indeed recurses
into child 1: its visit count is the one that grows. -/
theorem select_logN_counts_stale_children :
    totalVisits exT2 = 55 ∧
    candidateVisits exT2 [0, 1] = 5 ∧
    ¬ exT2.children.length < exS2.get_actions.length ∧
    (chooseBest mathId exT2 [0, 1]).map (fun x => x.1) = some 1 ∧
    (chooseBestSpecN mathId exT2 [0, 1]).map (fun x => x.1) = some 0 ∧
    (TreeNode.select mathId exT2 exS2 [0]).map
        (fun x => x.1.children.map (fun q => q.2.visits)) = some [4, 2, 50] := by
  have hcb : chooseBest mathId exT2 [0, 1] = some (1, 1, exA2) := by
    norm_num [chooseBest, bestLoop, ucbScore, logTotalOf, totalVisits, UCB.lt, mathId,
      exT2, exB2, exA2, exStale2, children, param, visits, results]
  refine ⟨by decide, by decide, by decide, ?_, ?_, ?_⟩
  · rw [hcb]
    rfl
  · norm_num [chooseBestSpecN, bestLoop, ucbScore, candidateVisits, UCB.lt, mathId,
      exT2, exB2, exA2, exStale2, children, param, visits, results]
  · show (TreeNode.select mathId exT2
        (GameState.node [0, 1] (fun _ => GameState.halt [] 0) 0) [0]).map
        (fun x => x.1.children.map (fun q => q.2.visits)) = some [4, 2, 50]
    rw [select_node_chosen mathId exT2 [0, 1] (fun _ => GameState.halt [] 0) 0 [0]
      1 1 exA2 (by decide) hcb]
    rfl

/-- C2 amended: the `N` used in the logarithm term of line 70 is the sum of
visit counts over all children (line 69); it decomposes as the spec's
candidates-only sum plus the visit counts of the stale children, so the two
agree exactly when the stale children contribute nothing. -/
theorem totalVisits_eq_candidate_add_stale {A : Type} [DecidableEq A]
    (t : TreeNode A) (actions : List A) :
    totalVisits t = candidateVisits t actions + staleVisits t actions := by
  unfold totalVisits candidateVisits staleVisits
  have hsplit := sum_filter_split (fun q : A × TreeNode A => decide (q.1 ∈ actions))
    (fun q => q.2.visits) t.children
  have hfun : (fun q : A × TreeNode A => decide (q.1 ∉ actions))
      = (fun q : A × TreeNode A => !(decide (q.1 ∈ actions))) := by
    funext q
    simp [decide_not]
  rw [hfun]
  omega

/-- C3: the invariant `visits == len(results)` holds — at every node of the
tree, as `invB` is checked recursively — for a freshly constructed node and
is preserved by every tree-transforming operation: `backpropagate` (along
any path), `expand`, `select`, `step`, and the whole iteration loop
(`get_best` and `print_tree` read the tree without producing one, so there
is nothing for them to preserve). -/
theorem visit_outcome_invariant {A : Type} [DecidableEq A] (m : MathFns)
    (copyU : GameState A → List ℕ → GameState A × List ℕ) (bs : GameState A) (p : ℚ) :
    invB (TreeNode.init (A := A) p) = true ∧
    (∀ (t : TreeNode A) (pth : List ℕ) (r : ℚ), invB t = true →
      invB (t.backpropagate r pth) = true) ∧
    (∀ (t : TreeNode A) (s : GameState A) (av : List A) (rng : List ℕ)
        (t2 : TreeNode A) (r : ℚ) (rng2 : List ℕ), invB t = true →
      expand t s av rng = some (t2, r, rng2) → invB t2 = true) ∧
    (∀ (t : TreeNode A) (s : GameState A) (rng : List ℕ) (t2 : TreeNode A) (r : ℚ)
        (rng2 : List ℕ), invB t = true →
      select m t s rng = some (t2, r, rng2) → invB t2 = true) ∧
    (∀ (t : TreeNode A) (s : GameState A) (rng : List ℕ) (t2 : TreeNode A) (r : ℚ)
        (rng2 : List ℕ), invB t = true →
      TreeNode.step m t s rng = some (t2, r, rng2) → invB t2 = true) ∧
    (∀ (n : ℕ) (t : TreeNode A) (rng : List ℕ) (t2 : TreeNode A) (rng2 : List ℕ),
      invB t = true → MCTSAgent.runIters m copyU bs n t rng = some (t2, rng2) →
      invB t2 = true) :=
  ⟨invB_init p,
   fun t pth r ht => backpropagate_invB pth t r ht,
   fun _ _ _ _ _ _ _ ht h => expand_invB ht h,
   fun t s rng t2 r rng2 ht h => select_invB m s t rng t2 r rng2 ht h,
   fun t s rng t2 r rng2 ht h => select_invB m s t rng t2 r rng2 ht h,
   fun n t rng t2 rng2 ht h => runIters_invB m copyU bs n t rng t2 rng2 ht h⟩

/-- C3 witness: the invariant for the concrete tree produced by one
`select` run on `exT1`. -/
theorem visit_outcome_invariant_witness :
    invB (TreeNode.mk [(0, TreeNode.mk [] [5, 7] 2 1), (1, exB1)] [5, 3, 7] 3 1)
      = true :=
  (visit_outcome_invariant mathId (fun s rng => (s, rng)) exS1 1).2.2.2.1
    exT1 exS1 [0]
    (TreeNode.mk [(0, TreeNode.mk [] [5, 7] 2 1), (1, exB1)] [5, 3, 7] 3 1) 7 [0]
    (by decide) (by rfl)

/-- C7: no two children of any node share an action — `nodupB` checks the
children's actions recursively at every node — for a fresh node, and this
is preserved by `expand` (which only creates a child for an action without
one), by `select` (whose fallback reuses a matching child before appending
a brand-new one), by `step` and by the whole iteration loop, so each
(parent, action) pair produces at most one child across all iterations. -/
theorem sibling_actions_unique {A : Type} [DecidableEq A] (m : MathFns)
    (copyU : GameState A → List ℕ → GameState A × List ℕ) (bs : GameState A) (p : ℚ) :
    nodupB (TreeNode.init (A := A) p) = true ∧
    (∀ (t : TreeNode A) (s : GameState A) (av : List A) (rng : List ℕ)
        (t2 : TreeNode A) (r : ℚ) (rng2 : List ℕ), nodupB t = true →
      expand t s av rng = some (t2, r, rng2) → nodupB t2 = true) ∧
    (∀ (t : TreeNode A) (s : GameState A) (rng : List ℕ) (t2 : TreeNode A) (r : ℚ)
        (rng2 : List ℕ), nodupB t = true →
      select m t s rng = some (t2, r, rng2) → nodupB t2 = true) ∧
    (∀ (t : TreeNode A) (s : GameState A) (rng : List ℕ) (t2 : TreeNode A) (r : ℚ)
        (rng2 : List ℕ), nodupB t = true →
      TreeNode.step m t s rng = some (t2, r, rng2) → nodupB t2 = true) ∧
    (∀ (n : ℕ) (t : TreeNode A) (rng : List ℕ) (t2 : TreeNode A) (rng2 : List ℕ),
      nodupB t = true → MCTSAgent.runIters m copyU bs n t rng = some (t2, rng2) →
      nodupB t2 = true) :=
  ⟨nodupB_init p,
   fun _ _ _ _ _ _ _ ht h => expand_nodupB ht h,
   fun t s rng t2 r rng2 ht h => select_nodupB m s t rng t2 r rng2 ht h,
   fun t s rng t2 r rng2 ht h => select_nodupB m s t rng t2 r rng2 ht h,
   fun n t rng t2 rng2 ht h => runIters_nodupB m copyU bs n t rng t2 rng2 ht h⟩

/-- C7 witness: the uniqueness invariant for the concrete tree produced by
one `select` run on `exT1`. -/
theorem sibling_actions_unique_witness :
    nodupB (TreeNode.mk [(0, TreeNode.mk [] [5, 7] 2 1), (1, exB1)] [5, 3, 7] 3 1)
      = true :=
  (sibling_actions_unique mathId (fun s rng => (s, rng)) exS1 1).2.2.1
    exT1 exS1 [0]
    (TreeNode.mk [(0, TreeNode.mk [] [5, 7] 2 1), (1, exB1)] [5, 3, 7] 3 1) 7 [0]
    (by decide) (by rfl)

/-- C6: on a state with at least one legal action, `get_best` on a
childless root returns an action drawn from the legal list by the uniform
choice (every legal action is reached by some draw); on a root with
children it returns the action of a child whose average outcome — with a
zero-visit child valued `-math.inf` — no sibling strictly exceeds, so a
zero-visit child is never returned while a visited child exists. -/
theorem get_best_spec {A : Type} (t : TreeNode A) (s : GameState A) (rng : List ℕ) :
    (t.children = [] → s.get_actions ≠ [] →
      (∃ a rng2, get_best t s rng = some (a, rng2) ∧ a ∈ s.get_actions) ∧
      (∀ a ∈ s.get_actions, ∃ k, get_best t s [k] = some (a, []))) ∧
    (∀ c cs, t.children = c :: cs →
      ∃ q, q ∈ t.children ∧ get_best t s rng = some (q.1, rng) ∧
        (∀ q2 ∈ t.children, (gbValue q.2).lt (gbValue q2.2) = false) ∧
        ((∃ q3 ∈ t.children, 0 < q3.2.visits) → 0 < q.2.visits)) := by
  constructor
  · intro hc hne
    constructor
    · refine ⟨(s.get_actions).get ⟨(randNext rng).1 % (s.get_actions).length,
        Nat.mod_lt _ (List.length_pos.mpr hne)⟩, (randNext rng).2, ?_, List.get_mem _ _ _⟩
      rw [get_best]
      simp only [hc]
      exact randChoice_eq _ _ hne
    · intro a ha
      obtain ⟨k, hk⟩ := randChoice_of_mem ha
      refine ⟨k, ?_⟩
      rw [get_best]
      simp only [hc]
      exact hk
  · intro c cs hc
    refine ⟨maxLoop cs c, ?_, ?_, ?_, ?_⟩
    · rw [hc]
      rcases (maxLoop_spec cs c).1 with h1 | h1
      · rw [h1]; exact List.mem_cons_self _ _
      · exact List.mem_cons_of_mem _ h1
    · rw [get_best]
      simp only [hc]
    · intro q2 hq2
      rw [hc] at hq2
      rcases List.mem_cons.mp hq2 with h1 | h1
      · exact h1 ▸ (maxLoop_spec cs c).2 c (Or.inl rfl)
      · exact (maxLoop_spec cs c).2 q2 (Or.inr h1)
    · rintro ⟨q3, hq3, hvis⟩
      by_contra hzero
      have hz : (maxLoop cs c).2.visits = 0 := by omega
      have hge : (gbValue (maxLoop cs c).2).lt (gbValue q3.2) = false := by
        rw [hc] at hq3
        rcases List.mem_cons.mp hq3 with h1 | h1
        · exact h1 ▸ (maxLoop_spec cs c).2 c (Or.inl rfl)
        · exact (maxLoop_spec cs c).2 q3 (Or.inr h1)
      rw [gbValue, if_neg (by omega), gbValue, if_pos hvis] at hge
      simp [UCB.lt] at hge

/-- C6 witness: `exT6` has an unvisited child (action 0) and a visited one
(action 1): `get_best` returns a child action that no sibling average
exceeds, and not the zero-visit one. -/
theorem get_best_spec_witness :
    ∃ q, q ∈ exT6.children ∧ get_best exT6 exS8 [0] = some (q.1, [0]) ∧
      ((∃ q3 ∈ exT6.children, 0 < q3.2.visits) → 0 < q.2.visits) := by
  obtain ⟨q, h1, h2, _, h4⟩ := (get_best_spec exT6 exS8 [0]).2 (0, exU5) [(1, exB1)] rfl
  exact ⟨q, h1, h2, h4⟩

/-- C8: when the state is live, expansion is not triggered, the legal list
is non-empty and no existing child's action is legal, `select` does not
fail: the UCB loop yields no candidate, the fallback draws a legal action
(by the uniform choice), no existing child can match it (their actions are
all illegal while the drawn one is legal — the reuse branch is vacuous
here), so a brand-new child is appended and `select` applies the action and
recurses into that child. -/
theorem select_fallback_recovers {A : Type} [DecidableEq A] (m : MathFns)
    (t : TreeNode A) (as : List A) (nx : A → GameState A) (sc : ℚ) (rng : List ℕ)
    (hlen : ¬ t.children.length < as.length)
    (hstale : ∀ q ∈ t.children, q.1 ∉ as)
    (hne : as ≠ []) :
    ∃ ba rng1, randChoice as rng = some (ba, rng1) ∧ ba ∈ as ∧
      chooseBest m t as = none ∧
      findAction t.children ba 0 = none ∧
      select m t (GameState.node as nx sc) rng =
        (match select m (TreeNode.init t.param) (nx ba) rng1 with
         | none => none
         | some (n2, r, rng2) =>
           some (TreeNode.mk (t.children ++ [(ba, n2)]) (t.results ++ [r])
             (t.visits + 1) t.param, r, rng2)) := by
  have hcb : chooseBest m t as = none :=
    bestLoop_skip_all m t.param (logTotalOf m t) as t.children 0 UCB.ninf none hstale
  have hrc := randChoice_eq as rng hne
  set ba := as.get ⟨(randNext rng).1 % as.length,
    Nat.mod_lt _ (List.length_pos.mpr hne)⟩ with hba
  have hmem : ba ∈ as := List.get_mem _ _ _
  have hfa : findAction t.children ba 0 = none := by
    cases hfa2 : findAction t.children ba 0 with
    | none => rfl
    | some y =>
      obtain ⟨j, n⟩ := y
      obtain ⟨-, hget⟩ := findAction_some hfa2
      rw [Nat.sub_zero] at hget
      exact absurd hmem (hstale (ba, n) (List.get?_mem hget))
  refine ⟨ba, (randNext rng).2, hrc, hmem, hcb, hfa, ?_⟩
  rw [select_node_fallback m t as nx sc rng hlen hcb]
  simp only [hrc, hfa]

/-- C8 witness: `exT8` whose only child's action 5 is illegal under legal
list `[7]`. -/
theorem select_fallback_recovers_witness :
    ∃ ba rng1, randChoice [7] [0] = some (ba, rng1) ∧ ba ∈ [7] ∧
      chooseBest mathId exT8 [7] = none ∧
      findAction exT8.children ba 0 = none ∧
      select mathId exT8 (GameState.node [7] (fun _ => GameState.halt [] 1) 0) [0] =
        (match select mathId (TreeNode.init exT8.param)
            ((fun _ => GameState.halt ([] : List ℕ) 1) ba) rng1 with
         | none => none
         | some (n2, r, rng2) =>
           some (TreeNode.mk (exT8.children ++ [(ba, n2)]) (exT8.results ++ [r])
             (exT8.visits + 1) exT8.param, r, rng2)) :=
  select_fallback_recovers mathId exT8 [7] (fun _ => GameState.halt [] 1) 0 [0]
    (by decide) (by decide) (by decide)

/-- C5: on a live state where expansion is not triggered, every existing
child's action is currently legal, and at least one child exists, `select`
recurses into the first child in insertion order attaining the maximal
UCB-1 score, where a zero-visit child scores `+math.inf` and a child with
`v > 0` visits scores `sum(results)/v + param * sqrt(log_total / v)` with
the logarithm term 0 when the visit sum `N` is 0; with every child a
candidate the spec's candidates-only `N` coincides with the code's sum over
all children; in particular, when exactly one child is unvisited and the
others are visited, the unvisited child is the one selected. -/
theorem select_all_legal_picks_first_max {A : Type} [DecidableEq A] (m : MathFns)
    (t : TreeNode A) (as : List A) (nx : A → GameState A) (sc : ℚ) (rng : List ℕ)
    (hlen : ¬ t.children.length < as.length)
    (hall : ∀ q ∈ t.children, q.1 ∈ as)
    (hne : t.children ≠ []) :
    ∃ i a n, t.children.get? i = some (a, n) ∧
      chooseBest m t as = some (i, a, n) ∧
      firstMaxAt (scoresOf m t) i ∧
      (∀ q ∈ t.children, ucbScore m t.param (logTotalOf m t) q.2 =
        if q.2.visits = 0 then UCB.pinf
        else UCB.val (q.2.results.sum / (q.2.visits : ℚ)
          + t.param * m.sqrt (logTotalOf m t / (q.2.visits : ℚ)))) ∧
      logTotalOf m t = (if 0 < totalVisits t then m.log (totalVisits t) else 0) ∧
      candidateVisits t as = totalVisits t ∧
      select m t (GameState.node as nx sc) rng =
        (match select m n (nx a) rng with
         | none => none
         | some (n2, r, rng1) =>
           some (TreeNode.mk (t.children.set i (a, n2)) (t.results ++ [r])
             (t.visits + 1) t.param, r, rng1)) ∧
      (∀ j aj nj, t.children.get? j = some (aj, nj) → nj.visits = 0 →
        (∀ k c, t.children.get? k = some c → k ≠ j → 0 < c.2.visits) → i = j) := by
  rcases bestLoop_all_legal m t.param (logTotalOf m t) as t.children 0 UCB.ninf none hall
    with h1 | h1
  · obtain ⟨k, c, hk, hmax, hbeat, hres⟩ := h1
    have hcb : chooseBest m t as = some (k, c.1, c.2) := by
      show bestLoop m t.param (logTotalOf m t) as t.children 0 UCB.ninf none
        = some (k, c.1, c.2)
      simpa using hres
    refine ⟨k, c.1, c.2, by simpa using hk, hcb, hmax, fun q _ => rfl, rfl, ?_, ?_, ?_⟩
    · rw [candidateVisits, totalVisits]
      have hfil : t.children.filter (fun q => decide (q.1 ∈ as)) = t.children := by
        apply List.filter_eq_self.mpr
        intro q hq
        simpa using hall q hq
      rw [hfil]
    · exact select_node_chosen m t as nx sc rng k c.1 c.2 hlen hcb
    · intro j aj nj hj hvj hothers
      obtain ⟨si, hsi, hmaxno, -⟩ := hmax
      have hsj : (scoresOf m t).get? j = some UCB.pinf := by
        rw [scoresOf, List.get?_map, hj]
        simp [ucbScore, hvj]
      have hle := hmaxno j UCB.pinf (by rwa [scoresOf] at hsj)
      have hsip : si = UCB.pinf := by
        by_contra hne2
        rw [UCB.lt_pinf hne2] at hle
        cases hle
      by_contra hkj
      have hpos := hothers k c (by simpa using hk) hkj
      have hsk : (t.children.map (fun q => ucbScore m t.param (logTotalOf m t) q.2)).get? k
          = some (ucbScore m t.param (logTotalOf m t) c.2) := by
        rw [List.get?_map, hk]
        rfl
      rw [hsk] at hsi
      simp only [Option.some.injEq] at hsi
      rw [ucbScore, if_neg (by omega)] at hsi
      rw [hsip] at hsi
      cases hsi
  · obtain ⟨hnone, -⟩ := h1
    obtain ⟨c0, cs0, hc⟩ := List.exists_cons_of_ne_nil hne
    have hfalse := hnone 0 c0 (by rw [hc]; rfl)
    rw [ninf_lt_ucbScore] at hfalse
    cases hfalse

/-- C5 witness: `exT5` (a visited child for action 4, then an unvisited one
for action 6) under legal actions `[6, 4]`: the chooser picks an actual
child at a first-maximal score position. -/
theorem select_all_legal_picks_first_max_witness :
    ∃ i a n, exT5.children.get? i = some (a, n) ∧
      chooseBest mathId exT5 [6, 4] = some (i, a, n) ∧
      firstMaxAt (scoresOf mathId exT5) i := by
  obtain ⟨i, a, n, h1, h2, h3, -, -, -, -, -⟩ :=
    select_all_legal_picks_first_max mathId exT5 [6, 4]
      (fun _ => GameState.halt [] 2) 0 [0] (by decide) (by decide) (by intro hcon; simpa [exT5, children] using hcon)
  exact ⟨i, a, n, h1, h2, h3⟩
